import Mathlib

/-!
Verification of the sales-analytics-system core pipeline.

Shallow embedding of the parse–validate–aggregate–enrich pipeline of the
repository (primary variant `sales-analytics-system/utils`): strings are
lists of characters, Python `int` is `Int`, Python `float` is `ℚ` (exact
rational arithmetic; the source only ever adds, multiplies, divides and
rounds decimal inputs), Python dicts keyed in insertion order are
association lists updated in place.
-/

namespace Sales

/-- Strings are modelled as lists of characters. -/
abbrev Str := List Char

/-- Python `str.strip()`: drop whitespace from both ends. -/
def trim (s : Str) : Str :=
  ((s.dropWhile Char.isWhitespace).reverse.dropWhile Char.isWhitespace).reverse

/-- Python `str.split(sep)` for a one-character separator: the list of
chunks between separator occurrences (an empty input gives one empty chunk,
as in Python). -/
def splitOn (sep : Char) : Str → List Str
  | [] => [[]]
  | c :: rest =>
    if c = sep then [] :: splitOn sep rest
    else
      match splitOn sep rest with
      | [] => [[c]]
      | f :: fs => (c :: f) :: fs

/-- `"|".join`-style inverse of `splitOn '|'`, used to model the
pipe-delimited line written by `save_enriched_data`. -/
def joinPipe : List Str → Str
  | [] => []
  | [f] => f
  | f :: fs => f ++ '|' :: joinPipe fs

/-- Python `str.startswith(c)` for a one-character prefix. -/
def startsWith (c : Char) : Str → Bool
  | [] => false
  | d :: _ => d = c

/-- Python `str.replace(",", "")`. -/
def removeCommas (s : Str) : Str := s.filter (fun c => ¬ c = ',')

/-- Python `str.replace(",", " ")`. -/
def commaToSpace (s : Str) : Str := s.map (fun c => if c = ',' then ' ' else c)

/-- Python `str.lower()`. -/
def lower (s : Str) : Str := s.map Char.toLower

/-- Numeric value of a decimal digit character. -/
def digitVal (c : Char) : Nat := c.toNat - '0'.toNat

/-- Value of a string of decimal digits, most significant first. -/
def charsVal (s : Str) : Nat := s.foldl (fun a c => 10 * a + digitVal c) 0

/-- Does every character satisfy `Char.isDigit`? -/
def allDigits (s : Str) : Bool := s.all Char.isDigit

/-- Model of Python `int(s)` on an already-stripped string: an optional
sign followed by at least one decimal digit; anything else fails.
(Exotic accepted forms such as underscore separators are out of scope:
the source only ever feeds it quantity fields.) -/
def parseInt (s : Str) : Option Int :=
  match s with
  | '-' :: rest =>
    if ¬ rest.isEmpty ∧ allDigits rest then some (-(charsVal rest : Int)) else none
  | '+' :: rest =>
    if ¬ rest.isEmpty ∧ allDigits rest then some (charsVal rest : Int) else none
  | _ =>
    if ¬ s.isEmpty ∧ allDigits s then some (charsVal s : Int) else none

/-- Model of Python `float(s)` on an already-stripped string, restricted to
plain decimal literals (optional sign, digits, optional point; at least one
digit overall; no exponent / `inf` / `nan`, which the source never produces
or consumes): the exact rational value of the literal. -/
def parseUnsigned (s : Str) : Option ℚ :=
  match splitOn '.' s with
  | [ip] => if ¬ ip.isEmpty ∧ allDigits ip then some (charsVal ip : ℚ) else none
  | [ip, fp] =>
    if (¬ ip.isEmpty ∨ ¬ fp.isEmpty) ∧ allDigits ip ∧ allDigits fp then
      some ((charsVal ip : ℚ) + (charsVal fp : ℚ) / 10 ^ fp.length)
    else none
  | _ => none

def parseFloat (s : Str) : Option ℚ :=
  match s with
  | '-' :: rest => (parseUnsigned rest).map (fun q => -q)
  | '+' :: rest => parseUnsigned rest
  | _ => parseUnsigned s

/-- Little-endian base-10 digits of `n`, with explicit fuel (any
`fuel ≥ n` is enough). -/
def digitsRev (fuel n : Nat) : List Nat :=
  match fuel with
  | 0 => []
  | fuel + 1 => if n = 0 then [] else n % 10 :: digitsRev fuel (n / 10)

/-- Decimal rendering of a natural number, as Python `str(n)`. -/
def natToChars (n : Nat) : Str :=
  if n = 0 then ['0'] else ((digitsRev n n).map Nat.digitChar).reverse

/-- Python `str` on an `int`. -/
def intStr (i : Int) : Str :=
  if i < 0 then '-' :: natToChars i.natAbs else natToChars i.natAbs

/-- Fixed-width decimal rendering (left zero-padded to `k` digits). -/
def padDigits (k v : Nat) : Str :=
  List.replicate (k - (natToChars v).length) '0' ++ natToChars v

/-- Model of Python `str` on a non-negative float whose value is the decimal
rational `q`: the exact decimal literal `I.F` of `q` (Python renders the
shortest literal that parses back to the same value; we render the exact
value with `q.den` fractional digits, which parses back identically). -/
def floatStrNN (q : ℚ) : Str :=
  let k := q.den
  let m := (q * 10 ^ k).num.toNat
  natToChars (m / 10 ^ k) ++ '.' :: padDigits k (m % 10 ^ k)

/-- Model of Python `str` on a float (decimal rational). -/
def floatStr (q : ℚ) : Str :=
  if q < 0 then '-' :: floatStrNN (-q) else floatStrNN q

/-- Python `round(x, 2)` (round half to even at the second decimal),
on exact rationals. -/
def rhe (q : ℚ) : Int :=
  let f := ⌊q⌋
  let r := q - (f : ℚ)
  if r < 1 / 2 then f
  else if 1 / 2 < r then f + 1
  else if f % 2 = 0 then f else f + 1

def round2 (q : ℚ) : ℚ := (rhe (q * 100) : ℚ) / 100

/-! ## Data model (`§3` of the spec; field names follow the source dicts) -/

structure Transaction where
  transactionID : Str
  date : Str
  productID : Str
  productName : Str
  quantity : Int
  unitPrice : ℚ
  customerID : Str
  region : Str
deriving DecidableEq

/-- Derived, never stored: `amount = quantity * unit_price`. -/
def amount (t : Transaction) : ℚ := (t.quantity : ℚ) * t.unitPrice

/-! ## `utils/file_handler.py` — `parse_transactions` -/

/-- The body of the `parse_transactions` loop for one stripped, non-empty
line: split on `|`, require exactly 8 fields, trim fields, normalize the
product name and the numeric fields, parse the numerics, then apply the
format rules; `none` means the line is discarded. -/
def parseRecord (line : Str) : Option Transaction :=
  match splitOn '|' line with
  | [p0, p1, p2, p3, p4, p5, p6, p7] =>
    let transaction_id := trim p0
    let date := trim p1
    let product_id := trim p2
    let product_name := trim (commaToSpace p3)
    match parseInt (trim (removeCommas p4)), parseFloat (trim (removeCommas p5)) with
    | some quantity, some unit_price =>
      let customer_id := trim p6
      let region := trim p7
      if ¬ startsWith 'T' transaction_id then none
      else if customer_id.isEmpty ∨ region.isEmpty then none
      else if quantity ≤ 0 then none
      else if unit_price ≤ 0 then none
      else some {
        transactionID := transaction_id
        date := date
        productID := product_id
        productName := product_name
        quantity := quantity
        unitPrice := unit_price
        customerID := customer_id
        region := region }
    | _, _ => none
  | _ => none

/-- The result of `parse_transactions`: the returned triple plus the
`total_records` counter the source prints to the console. -/
structure ParseOutput where
  parsed : List Transaction
  discarded_count : Nat
  discarded_records : List Str
  total_records : Nat
deriving DecidableEq

/-- One iteration of the `parse_transactions` loop. -/
def parseStep (acc : ParseOutput) (rawLine : Str) : ParseOutput :=
  let line := trim rawLine
  if line.isEmpty then acc
  else
    match parseRecord line with
    | some t =>
      { acc with
        parsed := acc.parsed ++ [t]
        total_records := acc.total_records + 1 }
    | none =>
      { acc with
        discarded_count := acc.discarded_count + 1
        discarded_records := acc.discarded_records ++ [line]
        total_records := acc.total_records + 1 }

def parse_transactions (rawLines : List Str) : ParseOutput :=
  rawLines.foldl parseStep ⟨[], 0, [], 0⟩

/-! ## `utils/file_handler.py` — `validate_and_filter` -/

/-- The validation gate: the five checks of the `validate_and_filter`
loop (each failure hits one `continue` and one `invalid_count += 1`). -/
def validTxn (t : Transaction) : Bool :=
  decide (0 < t.quantity) && decide ((0 : ℚ) < t.unitPrice) &&
    startsWith 'T' t.transactionID && startsWith 'P' t.productID &&
    startsWith 'C' t.customerID

/-- One iteration of the validation loop: append to the valid list, or
count the record invalid exactly once. -/
def validationStep (acc : List Transaction × Nat) (t : Transaction) :
    List Transaction × Nat :=
  if validTxn t then (acc.1 ++ [t], acc.2) else (acc.1, acc.2 + 1)

/-- The summary dictionary returned by `validate_and_filter`. -/
structure Summary where
  total_input : Nat
  invalid : Nat
  filtered_by_region : Nat
  filtered_by_amount : Nat
  final_count : Nat
deriving DecidableEq

/-- The observable outcome of `validate_and_filter`: the returned triple
plus the two always-executed display prints (`regionsShown` is the sorted
set of regions; `amountRange` is the printed min/max pair, `none` when the
`if amounts:` guard suppresses the print). -/
structure FilterResult where
  filtered : List Transaction
  invalid_count : Nat
  summary : Summary
  regionsShown : List Str
  amountRange : Option (ℚ × ℚ)
deriving DecidableEq

def validate_and_filter (transactions : List Transaction)
    (region : Option Str) (min_amount max_amount : Option ℚ) : FilterResult :=
  let total_input := transactions.length
  let vi : List Transaction × Nat := transactions.foldl validationStep ([], 0)
  let valid_transactions := vi.1
  let invalid_count := vi.2
  let regions :=
    ((valid_transactions.map (fun t => t.region)).dedup).insertionSort
      (fun a b => ¬ b < a)
  let amounts := valid_transactions.map (fun t => (t.quantity : ℚ) * t.unitPrice)
  let amountRange :=
    match amounts with
    | [] => none
    | a :: rest => some (rest.foldl min a, rest.foldl max a)
  let afterRegion :=
    match region with
    | some r =>
      if r.isEmpty then (valid_transactions, 0)
      else
        let f := valid_transactions.filter
          (fun (t : Transaction) => decide (lower t.region = lower r))
        (f, valid_transactions.length - f.length)
    | none => (valid_transactions, 0)
  let afterAmount :=
    if min_amount.isSome ∨ max_amount.isSome then
      let f := afterRegion.1.filter (fun (t : Transaction) =>
        (min_amount.all fun m => decide (m ≤ (t.quantity : ℚ) * t.unitPrice)) &&
        (max_amount.all fun m => decide ((t.quantity : ℚ) * t.unitPrice ≤ m)))
      (f, afterRegion.1.length - f.length)
    else (afterRegion.1, 0)
  { filtered := afterAmount.1
    invalid_count := invalid_count
    summary :=
      { total_input := total_input
        invalid := invalid_count
        filtered_by_region := afterRegion.2
        filtered_by_amount := afterAmount.2
        final_count := afterAmount.1.length }
    regionsShown := regions
    amountRange := amountRange }

/-! ## `utils/data_processor.py` — aggregation -/

/-- One dict update of the grouping loops (`region_wise_sales`,
`find_peak_sales_day`): accumulate an amount and a transaction count under
a string key, preserving Python-dict insertion order (a fresh key is
appended, an existing key is updated in place). -/
def bumpKey : List (Str × ℚ × Nat) → Str → ℚ → List (Str × ℚ × Nat)
  | [], k, amt => [(k, amt, 1)]
  | (k', s, c) :: rest, k, amt =>
    if k' = k then (k', s + amt, c + 1) :: rest
    else (k', s, c) :: bumpKey rest k amt

/-- The per-region entry of the `region_wise_sales` result. -/
structure RegionStats where
  total_sales : ℚ
  transaction_count : Nat
  percentage : ℚ
deriving DecidableEq

/-- The accumulation loop of `region_wise_sales`: per-region totals and
counts in first-seen order, together with `total_sales_all_regions`. -/
def regionAccum (transactions : List Transaction) : List (Str × ℚ × Nat) × ℚ :=
  transactions.foldl
    (fun a t => (bumpKey a.1 t.region (amount t), a.2 + amount t)) ([], 0)

/-- The finalize loop of `region_wise_sales`: percentage (0.0 unless the
grand total is positive) and rounding to 2 decimals. -/
def regionFinalize (grand : ℚ) (e : Str × ℚ × Nat) : Str × RegionStats :=
  (e.1,
    { total_sales := round2 e.2.1
      transaction_count := e.2.2
      percentage := if 0 < grand then round2 (e.2.1 / grand * 100) else 0 })

/-- The pre-sort content of `region_wise_sales` (the dict in insertion
order after the finalize loop). -/
def regionTable (transactions : List Transaction) : List (Str × RegionStats) :=
  let a := regionAccum transactions
  a.1.map (regionFinalize a.2)

/-- `region_wise_sales`: the finalized dict sorted by `total_sales`
descending.  Python `sorted` is stable; `List.insertionSort` with the
total preorder "comes weakly before" is its exact model. -/
def region_wise_sales (transactions : List Transaction) : List (Str × RegionStats) :=
  (regionTable transactions).insertionSort
    (fun a b => b.2.total_sales ≤ a.2.total_sales)

/-- The daily-totals accumulation loop of `find_peak_sales_day`. -/
def dailyTotals (transactions : List Transaction) : List (Str × ℚ × Nat) :=
  transactions.foldl (fun a t => bumpKey a t.date (amount t)) []

/-- The peak-selection loop: strict `>` against the running peak, starting
from `(None, 0.0, 0)`. -/
def peakStep (acc : Option Str × ℚ × Nat) (e : Str × ℚ × Nat) :
    Option Str × ℚ × Nat :=
  if acc.2.1 < e.2.1 then (some e.1, e.2.1, e.2.2) else acc

def find_peak_sales_day (transactions : List Transaction) :
    Option Str × ℚ × Nat :=
  let peak := (dailyTotals transactions).foldl peakStep (none, 0, 0)
  (peak.1, round2 peak.2.1, peak.2.2)

/-! ## `utils/api_handler.py` — enrichment and saving -/

/-- One catalog entry as stored by `create_product_mapping` (`.get` on a
JSON object may yield null, hence the `Option` fields). -/
structure CatalogInfo where
  title : Option Str
  category : Option Str
  brand : Option Str
  rating : Option ℚ
deriving DecidableEq

structure EnrichedTransaction where
  base : Transaction
  api_category : Option Str
  api_brand : Option Str
  api_rating : Option ℚ
  api_match : Bool
deriving DecidableEq

/-- `"".join(filter(str.isdigit, product_id))`. -/
def digitsOf (s : Str) : Str := s.filter Char.isDigit

/-- The body of the `enrich_sales_data` loop for one transaction: start
from the defaults, and fill the API fields exactly on a catalog hit of the
numeric id embedded in `product_id`. -/
def enrichOne (product_mapping : List (Nat × CatalogInfo)) (t : Transaction) :
    EnrichedTransaction :=
  let dflt : EnrichedTransaction :=
    { base := t, api_category := none, api_brand := none,
      api_rating := none, api_match := false }
  if t.productID.isEmpty then dflt
  else
    let numeric_id_str := digitsOf t.productID
    if numeric_id_str.isEmpty then dflt
    else
      match product_mapping.lookup (charsVal numeric_id_str) with
      | some info =>
        { base := t, api_category := info.category, api_brand := info.brand,
          api_rating := info.rating, api_match := true }
      | none => dflt

def enrich_sales_data (transactions : List Transaction)
    (product_mapping : List (Nat × CatalogInfo)) : List EnrichedTransaction :=
  transactions.map (enrichOne product_mapping)

/-- `txn.get('API_...') or ''` for a string field. -/
def optStr : Option Str → Str
  | none => []
  | some s => s

/-- `txn.get('API_Rating') or ''` for the rating field. -/
def optRatStr : Option ℚ → Str
  | none => []
  | some q => floatStr q

/-- Python `str` on the `True`/`False` match flag. -/
def boolStr (b : Bool) : Str :=
  if b then ['T', 'r', 'u', 'e'] else ['F', 'a', 'l', 's', 'e']

/-- The twelve `|`-joined fields of one line written by
`save_enriched_data` (without the trailing newline). -/
def enrichedLine (e : EnrichedTransaction) : Str :=
  joinPipe
    [e.base.transactionID, e.base.date, e.base.productID, e.base.productName,
     intStr e.base.quantity, floatStr e.base.unitPrice,
     e.base.customerID, e.base.region,
     optStr e.api_category, optStr e.api_brand, optRatStr e.api_rating,
     boolStr e.api_match]

/-- The first eight (base) fields of the saved line format, `|`-joined. -/
def baseLine (t : Transaction) : Str :=
  joinPipe
    [t.transactionID, t.date, t.productID, t.productName,
     intStr t.quantity, floatStr t.unitPrice, t.customerID, t.region]

/-- The rejection conditions the spec names for one raw line: a field
count other than exactly 8, or — once the numeric fields parse — a
non-positive quantity or unit price, a transaction id that does not start
with `T`, or an empty customer id or region. -/
def claimReject (l : Str) : Bool :=
  match splitOn '|' l with
  | [p0, _, _, _, p4, p5, p6, p7] =>
    match parseInt (trim (removeCommas p4)),
          parseFloat (trim (removeCommas p5)) with
    | some q, some p =>
      decide (q ≤ 0) || decide (p ≤ 0) || !(startsWith 'T' (trim p0)) ||
        (trim p6).isEmpty || (trim p7).isEmpty
    | _, _ => false
  | _ => true

/-- Neither end of the string is whitespace (so Python `strip` leaves it
unchanged). -/
def noWsEnds (s : Str) : Bool :=
  (match s.head? with
   | none => true
   | some c => !c.isWhitespace) &&
  (match s.getLast? with
   | none => true
   | some c => !c.isWhitespace)

/-- The transactions for which the eight base fields survive the
pipe-delimited save format unchanged: every string field is free of the
`|` delimiter and of surrounding whitespace, the product name is free of
commas (the parser replaces them), the three format rules hold, and the
unit price is a decimal rational (which everything produced by
`parse_transactions` is). -/
def parseStable (t : Transaction) : Prop :=
  (noWsEnds t.transactionID = true ∧ '|' ∉ t.transactionID) ∧
  (noWsEnds t.date = true ∧ '|' ∉ t.date) ∧
  (noWsEnds t.productID = true ∧ '|' ∉ t.productID) ∧
  (noWsEnds t.productName = true ∧ '|' ∉ t.productName ∧
    ',' ∉ t.productName) ∧
  (noWsEnds t.customerID = true ∧ '|' ∉ t.customerID) ∧
  (noWsEnds t.region = true ∧ '|' ∉ t.region) ∧
  startsWith 'T' t.transactionID = true ∧
  ¬ t.customerID = [] ∧ ¬ t.region = [] ∧
  0 < t.quantity ∧ 0 < t.unitPrice ∧
  (t.unitPrice * 10 ^ t.unitPrice.den).den = 1

/-! ## Specification-side observables for the grouping loops -/

/-- The grouping loops instantiated generically: fold `bumpKey` over the
transactions under a key function (`region_wise_sales` uses the region,
`find_peak_sales_day` the date). -/
def accumFold (key : Transaction → Str) (ts : List Transaction) :
    List (Str × ℚ × Nat) :=
  ts.foldl (fun a t => bumpKey a (key t) (amount t)) []

/-- The distinct values of a list in first-seen order — the iteration
order of a Python dict keyed by them. -/
def firstSeen (ks : List Str) : List Str :=
  ks.foldl (fun acc k => if k ∈ acc then acc else acc ++ [k]) []

/-- Specification-side: the summed amount of the transactions carrying a
given key. -/
def keyAmount (key : Transaction → Str) (ts : List Transaction) (k : Str) : ℚ :=
  ((ts.filter (fun t => decide (key t = k))).map amount).sum

/-- Specification-side: how many transactions carry a given key. -/
def keyCount (key : Transaction → Str) (ts : List Transaction) (k : Str) : Nat :=
  ts.countP (fun t => decide (key t = k))

/-! ## Concrete sample data (spec §8 scenarios), used to instantiate the
theorems below at closed inputs -/

def sampleLine : Str := "T001|2024-01-05|P101|Laptop|2|50000|C001|North".toList

/-- A 7-field line (spec §8 discard scenario). -/
def shortLine : Str := "T001|2024-01-05|P101|Laptop|2|50000|C001".toList

def txGood : Transaction :=
  { transactionID := "T001".toList, date := "2024-01-05".toList
    productID := "P101".toList, productName := "Laptop".toList
    quantity := 2, unitPrice := 50000
    customerID := "C001".toList, region := "North".toList }

def txSouth : Transaction :=
  { transactionID := "T002".toList, date := "2024-01-06".toList
    productID := "P7".toList, productName := "Mouse".toList
    quantity := 1, unitPrice := 500
    customerID := "C002".toList, region := "South".toList }

def txBad : Transaction :=
  { transactionID := "X003".toList, date := "2024-01-07".toList
    productID := "P101".toList, productName := "Laptop".toList
    quantity := 3, unitPrice := 100
    customerID := "C003".toList, region := "North".toList }

def sampleCatalog : List (Nat × CatalogInfo) :=
  [(7, { title := some "Pencil".toList, category := some "office".toList
         brand := some "Acme".toList, rating := some (42 / 10) })]

/-! ## Supporting lemmas -/

theorem parse_foldl_spec (lines : List Str) (acc : ParseOutput) :
    (lines.foldl parseStep acc).total_records
        = acc.total_records + lines.countP (fun l => !(trim l).isEmpty) ∧
    (lines.foldl parseStep acc).parsed.length
        + (lines.foldl parseStep acc).discarded_count
      = acc.parsed.length + acc.discarded_count
        + lines.countP (fun l => !(trim l).isEmpty) ∧
    (lines.foldl parseStep acc).discarded_records.length + acc.discarded_count
      = acc.discarded_records.length
        + (lines.foldl parseStep acc).discarded_count := by
  induction lines generalizing acc with
  | nil => simp
  | cons l ls ih =>
    simp only [List.foldl_cons, List.countP_cons]
    by_cases he : (trim l).isEmpty
    · have hstep : parseStep acc l = acc := by simp [parseStep, he]
      rw [hstep]
      obtain ⟨h1, h2, h3⟩ := ih acc
      simp [he, h1, h2, h3]
    · cases hp : parseRecord (trim l) with
      | some t =>
        have hstep : parseStep acc l =
            { acc with parsed := acc.parsed ++ [t],
                       total_records := acc.total_records + 1 } := by
          simp [parseStep, he, hp]
        rw [hstep]
        obtain ⟨h1, h2, h3⟩ := ih
          { acc with parsed := acc.parsed ++ [t],
                     total_records := acc.total_records + 1 }
        simp only [List.length_append, List.length_cons,
          List.length_nil] at h1 h2 h3
        have hcp : (!(trim l).isEmpty) = true := by simp [he]
        rw [if_pos hcp]
        omega
      | none =>
        have hstep : parseStep acc l =
            { acc with discarded_count := acc.discarded_count + 1,
                       discarded_records := acc.discarded_records ++ [trim l],
                       total_records := acc.total_records + 1 } := by
          simp [parseStep, he, hp]
        rw [hstep]
        obtain ⟨h1, h2, h3⟩ := ih
          { acc with discarded_count := acc.discarded_count + 1,
                     discarded_records := acc.discarded_records ++ [trim l],
                     total_records := acc.total_records + 1 }
        simp only [List.length_append, List.length_cons,
          List.length_nil] at h1 h2 h3
        have hcp : (!(trim l).isEmpty) = true := by simp [he]
        rw [if_pos hcp]
        omega

theorem countP_not_add (p : α → Bool) (l : List α) :
    l.countP p + l.countP (fun a => !(p a)) = l.length := by
  induction l with
  | nil => simp
  | cons a l ih =>
    simp only [List.countP_cons, List.length_cons]
    by_cases h : p a <;> simp [h] <;> omega

theorem validation_foldl (ts : List Transaction) (acc : List Transaction × Nat) :
    ts.foldl validationStep acc
      = (acc.1 ++ ts.filter validTxn,
         acc.2 + ts.countP (fun t => !(validTxn t))) := by
  induction ts generalizing acc with
  | nil => simp
  | cons t ts ih =>
    simp only [List.foldl_cons, validationStep, List.filter_cons,
      List.countP_cons]
    by_cases h : validTxn t
    · simp [h, ih]
    · simp only [h, if_neg, Bool.false_eq_true, not_false_eq_true, if_false]
      rw [ih]
      simp [h]
      omega

/-! ## Claim theorems -/

/-- Claim C1: for every list of raw input lines, `parse_transactions`
returns parsed transactions, a discarded count and discarded records such
that parsed + discarded equals the number of non-empty lines seen, and the
discard list has exactly `discarded_count` entries. -/
theorem parse_transactions_accounting (rawLines : List Str) :
    (parse_transactions rawLines).parsed.length
        + (parse_transactions rawLines).discarded_count
      = (parse_transactions rawLines).total_records ∧
    (parse_transactions rawLines).total_records
      = rawLines.countP (fun l => !(trim l).isEmpty) ∧
    (parse_transactions rawLines).discarded_records.length
      = (parse_transactions rawLines).discarded_count := by
  obtain ⟨h1, h2, h3⟩ := parse_foldl_spec rawLines ⟨[], 0, [], 0⟩
  simp only [parse_transactions] at *
  simp at h1 h2 h3
  exact ⟨by omega, by omega, by omega⟩

/-- Claim C2: with no filters supplied, `validate_and_filter` keeps a
transaction if and only if `quantity > 0`, `unit_price > 0`, and the three
id prefixes are right; every failing transaction is counted invalid
exactly once and excluded, so the valid set and the invalid counter
partition the input. -/
theorem validate_and_filter_gate (ts : List Transaction) :
    (∀ t : Transaction,
      t ∈ (validate_and_filter ts none none none).filtered ↔
        t ∈ ts ∧ 0 < t.quantity ∧ 0 < t.unitPrice ∧
          startsWith 'T' t.transactionID = true ∧
          startsWith 'P' t.productID = true ∧
          startsWith 'C' t.customerID = true) ∧
    (validate_and_filter ts none none none).invalid_count
      = ts.countP (fun t => !(validTxn t)) ∧
    (validate_and_filter ts none none none).filtered.length
        + (validate_and_filter ts none none none).invalid_count
      = ts.length := by
  have hval := validation_foldl ts ([], 0)
  constructor
  · intro t
    simp [validate_and_filter, hval, List.mem_filter, validTxn, and_assoc]
  · constructor
    · simp [validate_and_filter, hval]
    · simp [validate_and_filter, hval]
      have h := countP_not_add validTxn ts
      rw [← List.countP_eq_length_filter]
      omega

/-- Claim C6: on every input whose valid set is empty, `validate_and_filter`
returns normally with the amount-range display suppressed (the guarded
`if amounts:` never takes a min/max of an empty list), an empty result and
the degenerate summary. -/
theorem validate_and_filter_empty_safe (ts : List Transaction)
    (region : Option Str) (mn mx : Option ℚ)
    (h : ts.filter validTxn = []) :
    (validate_and_filter ts region mn mx).amountRange = none ∧
    (validate_and_filter ts region mn mx).filtered = [] ∧
    (validate_and_filter ts region mn mx).invalid_count = ts.length ∧
    (validate_and_filter ts region mn mx).summary
      = ⟨ts.length, ts.length, 0, 0, 0⟩ := by
  have hval := validation_foldl ts ([], 0)
  have hcount : ts.countP (fun t => !(validTxn t)) = ts.length := by
    have h1 := countP_not_add validTxn ts
    have h2 : ts.countP validTxn = 0 := by
      rw [List.countP_eq_length_filter, h, List.length_nil]
    omega
  rcases region with _ | r
  · simp [validate_and_filter, hval, h, hcount]
  · by_cases hre : r.isEmpty <;>
      simp [validate_and_filter, hval, h, hcount, hre]

/-- Closed instance of `validate_and_filter_empty_safe` at a one-element
invalid input with all three filter parameters supplied. -/
theorem validate_and_filter_empty_safe_witness :
    ([txBad].filter validTxn = []) ∧
    ((validate_and_filter [txBad] (some "x".toList) (some 5) (some 9)).amountRange
        = none ∧
      (validate_and_filter [txBad] (some "x".toList) (some 5) (some 9)).filtered
        = [] ∧
      (validate_and_filter [txBad] (some "x".toList) (some 5) (some 9)).invalid_count
        = [txBad].length ∧
      (validate_and_filter [txBad] (some "x".toList) (some 5) (some 9)).summary
        = ⟨[txBad].length, [txBad].length, 0, 0, 0⟩) :=
  ⟨by decide,
   validate_and_filter_empty_safe [txBad] (some "x".toList) (some 5) (some 9)
     (by decide)⟩

/-- In both branches of `enrich_sales_data`, the base record is the input
transaction, unchanged. -/
theorem enrichOne_base (m : List (Nat × CatalogInfo)) (t : Transaction) :
    (enrichOne m t).base = t := by
  dsimp only [enrichOne]
  split
  · rfl
  · split
    · rfl
    · split <;> rfl

/-- Claim C3: `enrich_sales_data` is total, and for each input transaction
the enriched record matches (with the three API fields taken from the
catalog entry) exactly when the digit string of its `product_id` is
non-empty and its value is a key of the mapping; otherwise (miss, empty
digit string, or empty `product_id`) the four enrichment fields keep their
defaults. -/
theorem enrich_sales_data_spec (ts : List Transaction)
    (m : List (Nat × CatalogInfo)) (i : Nat) (t : Transaction)
    (hit : ts[i]? = some t) :
    ∃ e, (enrich_sales_data ts m)[i]? = some e ∧
      (e.api_match = true ↔
        ¬ (digitsOf t.productID).isEmpty ∧
          (m.lookup (charsVal (digitsOf t.productID))).isSome) ∧
      (∀ info, ¬ (digitsOf t.productID).isEmpty →
        m.lookup (charsVal (digitsOf t.productID)) = some info →
        e.api_category = info.category ∧ e.api_brand = info.brand ∧
          e.api_rating = info.rating) ∧
      (e.api_match = false →
        e.api_category = none ∧ e.api_brand = none ∧ e.api_rating = none) := by
  refine ⟨enrichOne m t, ?_, ?_, ?_, ?_⟩
  · simp [enrich_sales_data, hit]
  · unfold enrichOne
    by_cases h1 : t.productID.isEmpty
    · have hnil : t.productID = [] := by simpa using h1
      have : (digitsOf t.productID).isEmpty = true := by
        simp [digitsOf, hnil]
      simp [h1, this]
    · simp only [h1, if_false, Bool.false_eq_true]
      by_cases h2 : (digitsOf t.productID).isEmpty
      · simp [h2]
      · cases hl : m.lookup (charsVal (digitsOf t.productID)) <;>
          simp [h2, hl]
  · intro info h2 hl
    unfold enrichOne
    have h1 : t.productID.isEmpty = false := by
      cases hp : t.productID with
      | nil => rw [hp] at h2; simp [digitsOf] at h2
      | cons c cs => simp [hp]
    simp [h1, h2, hl]
  · intro hm
    unfold enrichOne at hm ⊢
    by_cases h1 : t.productID.isEmpty
    · simp [h1]
    · simp only [h1, if_false, Bool.false_eq_true] at hm ⊢
      by_cases h2 : (digitsOf t.productID).isEmpty
      · simp [h2]
      · cases hl : m.lookup (charsVal (digitsOf t.productID))
        · simp [h2, hl]
        · rw [hl] at hm; simp [h2] at hm

/-- Closed instance of `enrich_sales_data_spec`: product id `P7` against a
catalog containing id 7 (spec §8 hit scenario). -/
theorem enrich_sales_data_spec_witness :
    ([txGood, txSouth][1]? = some txSouth) ∧
    ∃ e, (enrich_sales_data [txGood, txSouth] sampleCatalog)[1]? = some e ∧
      (e.api_match = true ↔
        ¬ (digitsOf txSouth.productID).isEmpty ∧
          (sampleCatalog.lookup (charsVal (digitsOf txSouth.productID))).isSome) ∧
      (∀ info, ¬ (digitsOf txSouth.productID).isEmpty →
        sampleCatalog.lookup (charsVal (digitsOf txSouth.productID)) = some info →
        e.api_category = info.category ∧ e.api_brand = info.brand ∧
          e.api_rating = info.rating) ∧
      (e.api_match = false →
        e.api_category = none ∧ e.api_brand = none ∧ e.api_rating = none) :=
  ⟨by decide,
   enrich_sales_data_spec [txGood, txSouth] sampleCatalog 1 txSouth (by decide)⟩

/-- Claim C10: `enrich_sales_data` returns one enriched record per input
transaction, in order, and the eight base fields of each are identical to
the input's; only the four API fields are added. -/
theorem enrich_sales_data_frame (ts : List Transaction)
    (m : List (Nat × CatalogInfo)) :
    (enrich_sales_data ts m).length = ts.length ∧
    ∀ (i : Nat) (t : Transaction), ts[i]? = some t →
      ∃ e, (enrich_sales_data ts m)[i]? = some e ∧
        e.base.transactionID = t.transactionID ∧ e.base.date = t.date ∧
        e.base.productID = t.productID ∧ e.base.productName = t.productName ∧
        e.base.quantity = t.quantity ∧ e.base.unitPrice = t.unitPrice ∧
        e.base.customerID = t.customerID ∧ e.base.region = t.region := by
  constructor
  · simp [enrich_sales_data]
  · intro i t hit
    refine ⟨enrichOne m t, by simp [enrich_sales_data, hit], ?_⟩
    rw [enrichOne_base]
    exact ⟨rfl, rfl, rfl, rfl, rfl, rfl, rfl, rfl⟩

/-- Closed instance of `enrich_sales_data_frame` (the per-index part at
index 0 of a two-element input). -/
theorem enrich_sales_data_frame_witness :
    ((enrich_sales_data [txGood, txSouth] sampleCatalog).length
        = [txGood, txSouth].length) ∧
    ∃ e, (enrich_sales_data [txGood, txSouth] sampleCatalog)[0]? = some e ∧
      e.base.transactionID = txGood.transactionID ∧ e.base.date = txGood.date ∧
      e.base.productID = txGood.productID ∧
      e.base.productName = txGood.productName ∧
      e.base.quantity = txGood.quantity ∧ e.base.unitPrice = txGood.unitPrice ∧
      e.base.customerID = txGood.customerID ∧ e.base.region = txGood.region :=
  ⟨(enrich_sales_data_frame [txGood, txSouth] sampleCatalog).1,
   (enrich_sales_data_frame [txGood, txSouth] sampleCatalog).2 0 txGood
     (by decide)⟩

/-- Claim C5: on the already-valid set, the region filter keeps exactly the
transactions whose region matches case-insensitively (counting the removed
ones as `filtered_by_region`), and the amount filter then keeps exactly the
transactions whose `quantity * unit_price` lies within the inclusive
supplied bounds, an absent bound being unbounded (counting the removed ones
as `filtered_by_amount`). -/
theorem validate_and_filter_filters (ts : List Transaction) (r : Str)
    (mn mx : Option ℚ) (hr : ¬ r = []) :
    (validate_and_filter ts (some r) mn mx).filtered
        = ((ts.filter validTxn).filter
            (fun t => decide (lower t.region = lower r))).filter
            (fun t => (mn.all fun m => decide (m ≤ amount t)) &&
                      (mx.all fun m => decide (amount t ≤ m))) ∧
    (validate_and_filter ts (some r) mn mx).summary.filtered_by_region
        = (ts.filter validTxn).countP
            (fun t => !(decide (lower t.region = lower r))) ∧
    (validate_and_filter ts (some r) mn mx).summary.filtered_by_amount
        = ((ts.filter validTxn).filter
            (fun t => decide (lower t.region = lower r))).countP
            (fun t => !((mn.all fun m => decide (m ≤ amount t)) &&
                        (mx.all fun m => decide (amount t ≤ m)))) := by
  have hval := validation_foldl ts ([], 0)
  have hre : r.isEmpty = false := by
    cases r
    · exact absurd rfl hr
    · rfl
  have hsub : ∀ (l : List Transaction) (p : Transaction → Bool),
      l.length - (l.filter p).length = l.countP (fun t => !(p t)) := by
    intro l p
    have h1 := countP_not_add p l
    have h2 : l.countP p = (l.filter p).length := by
      rw [List.countP_eq_length_filter]
    omega
  by_cases hamt : mn.isSome ∨ mx.isSome
  · refine ⟨?_, ?_, ?_⟩
    · simp [validate_and_filter, hval, hre, hamt, amount]
    · rw [← hsub]
      simp [validate_and_filter, hval, hre, hamt]
    · rw [← hsub]
      simp [validate_and_filter, hval, hre, hamt, amount]
  · have hmn : mn = none := by
      rcases mn with _ | v
      · rfl
      · exact absurd (Or.inl rfl) hamt
    have hmx : mx = none := by
      rcases mx with _ | v
      · rfl
      · exact absurd (Or.inr rfl) hamt
    subst hmn hmx
    refine ⟨?_, ?_, ?_⟩
    · simp [validate_and_filter, hval, hre]
    · rw [← hsub]
      simp [validate_and_filter, hval, hre]
    · simp [validate_and_filter, hval, hre]

/-- Closed instance of `validate_and_filter_filters`: lower-case region
query against mixed-case data, with only a lower bound supplied. -/
theorem validate_and_filter_filters_witness :
    (¬ "north".toList = []) ∧
    ((validate_and_filter [txGood, txSouth, txBad] (some "north".toList)
          (some 100) none).filtered
        = (([txGood, txSouth, txBad].filter validTxn).filter
            (fun t => decide (lower t.region = lower "north".toList))).filter
            (fun t => ((some (100 : ℚ)).all fun m => decide (m ≤ amount t)) &&
                      ((none : Option ℚ).all fun m => decide (amount t ≤ m))) ∧
      (validate_and_filter [txGood, txSouth, txBad] (some "north".toList)
          (some 100) none).summary.filtered_by_region
        = ([txGood, txSouth, txBad].filter validTxn).countP
            (fun t => !(decide (lower t.region = lower "north".toList))) ∧
      (validate_and_filter [txGood, txSouth, txBad] (some "north".toList)
          (some 100) none).summary.filtered_by_amount
        = (([txGood, txSouth, txBad].filter validTxn).filter
            (fun t => decide (lower t.region = lower "north".toList))).countP
            (fun t => !(((some (100 : ℚ)).all fun m => decide (m ≤ amount t)) &&
                        ((none : Option ℚ).all fun m => decide (amount t ≤ m))))) :=
  ⟨by decide,
   validate_and_filter_filters [txGood, txSouth, txBad] "north".toList
     (some 100) none (by decide)⟩

/-- A line satisfying one of the spec's rejection conditions is rejected by
the parsing step. -/
theorem claimReject_parseRecord (l : Str) (h : claimReject l = true) :
    parseRecord l = none := by
  unfold claimReject at h
  unfold parseRecord
  split at h
  next p0 p1 p2 p3 p4 p5 p6 p7 heq =>
    split at h
    next q p hq hp =>
      simp only [Bool.or_eq_true, decide_eq_true_eq, Bool.not_eq_true'] at h
      dsimp only
      rcases h with (((hc | hc) | hc) | hc) | hc <;> simp [hc]
    next hq hp => cases h
  next hne => rfl

/-- Lines already in the discard list stay there as the fold continues. -/
theorem parse_discarded_mono (lines : List Str) (acc : ParseOutput) (x : Str)
    (hx : x ∈ acc.discarded_records) :
    x ∈ (lines.foldl parseStep acc).discarded_records := by
  induction lines generalizing acc with
  | nil => exact hx
  | cons l ls ih =>
    rw [List.foldl_cons]
    apply ih
    unfold parseStep
    dsimp only
    split
    · exact hx
    · split <;> simp [hx]

theorem parse_reject_foldl (lines : List Str) (acc : ParseOutput) (l : Str)
    (hmem : l ∈ lines) (htrim : trim l = l) (hne : ¬ l.isEmpty = true)
    (hrej : claimReject l = true) :
    l ∈ (lines.foldl parseStep acc).discarded_records := by
  induction lines generalizing acc with
  | nil => cases hmem
  | cons hd tl ih =>
    rw [List.foldl_cons]
    rcases List.mem_cons.mp hmem with rfl | hmem'
    · apply parse_discarded_mono
      unfold parseStep
      dsimp only
      rw [htrim, if_neg hne, claimReject_parseRecord l hrej]
      simp
    · exact ih (parseStep acc hd) hmem'

/-- Claim C8: `parse_transactions` rejects any (pre-stripped, non-empty)
line whose `|`-split does not have exactly 8 fields, or whose quantity or
unit price is non-positive, whose transaction id does not start with `T`,
or whose customer id or region is empty — and the rejected line itself is
kept verbatim in the discard list. -/
theorem parse_transactions_reject (rawLines : List Str) (l : Str)
    (hmem : l ∈ rawLines) (htrim : trim l = l) (hne : ¬ l.isEmpty = true)
    (hrej : claimReject l = true) :
    l ∈ (parse_transactions rawLines).discarded_records :=
  parse_reject_foldl rawLines ⟨[], 0, [], 0⟩ l hmem htrim hne hrej

/-! ### The grouping dict as a first-seen table -/

theorem firstSeen_append (l : List Str) (k : Str) :
    firstSeen (l ++ [k])
      = if k ∈ firstSeen l then firstSeen l else firstSeen l ++ [k] := by
  unfold firstSeen
  rw [List.foldl_append]
  rfl

theorem firstSeen_mem (l : List Str) : ∀ a, a ∈ firstSeen l ↔ a ∈ l := by
  induction l using List.reverseRecOn with
  | nil => simp [firstSeen]
  | append_singleton l k ih =>
    intro a
    rw [firstSeen_append]
    by_cases h : k ∈ firstSeen l
    · rw [if_pos h]
      rw [ih] at h
      rw [ih a, List.mem_append, List.mem_singleton]
      constructor
      · exact Or.inl
      · rintro (ha | rfl)
        · exact ha
        · exact h
    · rw [if_neg h]
      simp [ih a]

theorem firstSeen_nodup (l : List Str) : (firstSeen l).Nodup := by
  induction l using List.reverseRecOn with
  | nil => simp [firstSeen]
  | append_singleton l k ih =>
    rw [firstSeen_append]
    by_cases h : k ∈ firstSeen l
    · rw [if_pos h]; exact ih
    · rw [if_neg h]
      simp [List.nodup_append, ih, h]

theorem bumpKey_not_mem (acc : List (Str × ℚ × Nat)) (k : Str) (amt : ℚ)
    (h : ∀ e ∈ acc, ¬ e.1 = k) :
    bumpKey acc k amt = acc ++ [(k, amt, 1)] := by
  induction acc with
  | nil => rfl
  | cons e rest ih =>
    obtain ⟨k', s, c⟩ := e
    have hk : ¬ k' = k := h (k', s, c) (by simp)
    simp only [bumpKey, if_neg hk, List.cons_append, List.cons.injEq, true_and]
    exact ih (fun e he => h e (List.mem_cons_of_mem _ he))

theorem bumpKey_map_mem (F : List Str) (A : Str → ℚ) (C : Str → Nat)
    (k : Str) (amt : ℚ) (hnd : F.Nodup) (hk : k ∈ F) :
    bumpKey (F.map (fun x => (x, A x, C x))) k amt
      = F.map (fun x => (x, A x + (if x = k then amt else 0),
                             C x + (if x = k then 1 else 0))) := by
  induction F with
  | nil => cases hk
  | cons x F ih =>
    simp only [List.map_cons]
    by_cases hx : x = k
    · subst hx
      have hnotin : x ∉ F := (List.nodup_cons.mp hnd).1
      simp only [bumpKey, eq_self_iff_true, if_true]
      congr 1
      apply List.map_congr_left
      intro y hy
      have hne : ¬ y = x := fun he => hnotin (he ▸ hy)
      simp [hne]
    · have hk' : k ∈ F := by
        rcases List.mem_cons.mp hk with rfl | hin
        · exact absurd rfl hx
        · exact hin
      have hxne : ¬ x = k := hx
      simp only [bumpKey, if_neg hxne]
      rw [ih (List.nodup_cons.mp hnd).2 hk']
      congr 1
      simp [hxne]

theorem keyAmount_append (key : Transaction → Str) (ts : List Transaction)
    (t : Transaction) (k : Str) :
    keyAmount key (ts ++ [t]) k
      = keyAmount key ts k + (if key t = k then amount t else 0) := by
  unfold keyAmount
  rw [List.filter_append]
  by_cases h : key t = k <;> simp [h]

theorem keyCount_append (key : Transaction → Str) (ts : List Transaction)
    (t : Transaction) (k : Str) :
    keyCount key (ts ++ [t]) k
      = keyCount key ts k + (if key t = k then 1 else 0) := by
  unfold keyCount
  rw [List.countP_append]
  by_cases h : key t = k <;> simp [h]

theorem keyAmount_not_mem (key : Transaction → Str) (ts : List Transaction)
    (k : Str) (h : k ∉ ts.map key) : keyAmount key ts k = 0 := by
  unfold keyAmount
  have hnil : ts.filter (fun t => decide (key t = k)) = [] := by
    rw [List.filter_eq_nil_iff]
    intro t ht
    simp only [decide_eq_true_eq]
    exact fun he => h (List.mem_map.mpr ⟨t, ht, he⟩)
  simp [hnil]

theorem keyCount_not_mem (key : Transaction → Str) (ts : List Transaction)
    (k : Str) (h : k ∉ ts.map key) : keyCount key ts k = 0 := by
  unfold keyCount
  rw [List.countP_eq_length_filter]
  have hnil : ts.filter (fun t => decide (key t = k)) = [] := by
    rw [List.filter_eq_nil_iff]
    intro t ht
    simp only [decide_eq_true_eq]
    exact fun he => h (List.mem_map.mpr ⟨t, ht, he⟩)
  simp [hnil]

/-- The grouping fold computes, in first-seen key order, the summed amount
and the transaction count of every key of the input. -/
theorem accumFold_eq (key : Transaction → Str) (ts : List Transaction) :
    accumFold key ts
      = (firstSeen (ts.map key)).map
          (fun k => (k, keyAmount key ts k, keyCount key ts k)) := by
  induction ts using List.reverseRecOn with
  | nil => rfl
  | append_singleton ts t ih =>
    unfold accumFold at ih ⊢
    rw [List.foldl_append, List.foldl_cons, List.foldl_nil, ih,
      List.map_append, List.map_cons, List.map_nil, firstSeen_append]
    by_cases hk : key t ∈ firstSeen (ts.map key)
    · rw [if_pos hk]
      rw [bumpKey_map_mem _ _ _ _ _ (firstSeen_nodup _) hk]
      apply List.map_congr_left
      intro x hx
      rw [keyAmount_append, keyCount_append]
      by_cases hxk : x = key t
      · subst hxk
        simp
      · have hne : ¬ key t = x := fun he => hxk he.symm
        simp [hxk, hne]
    · rw [if_neg hk]
      rw [bumpKey_not_mem]
      · rw [List.map_append, List.map_cons, List.map_nil]
        congr 1
        · apply List.map_congr_left
          intro x hx
          rw [keyAmount_append, keyCount_append]
          have hne : ¬ key t = x := fun he => hk (he ▸ hx)
          simp [hne]
        · have h0a : keyAmount key ts (key t) = 0 :=
            keyAmount_not_mem _ _ _ (fun hc => hk ((firstSeen_mem _ _).mpr hc))
          have h0c : keyCount key ts (key t) = 0 :=
            keyCount_not_mem _ _ _ (fun hc => hk ((firstSeen_mem _ _).mpr hc))
          rw [keyAmount_append, keyCount_append, h0a, h0c]
          simp
      · intro e he
        obtain ⟨x, hx, rfl⟩ := List.mem_map.mp he
        exact fun he' => hk (he' ▸ hx)

theorem regionAccum_eq (ts : List Transaction) :
    regionAccum ts
      = (accumFold (fun t => t.region) ts, (ts.map amount).sum) := by
  unfold regionAccum accumFold
  suffices h : ∀ (acc : List (Str × ℚ × Nat)) (g : ℚ),
      ts.foldl (fun a t => (bumpKey a.1 t.region (amount t), a.2 + amount t))
          (acc, g)
        = (ts.foldl (fun a t => bumpKey a t.region (amount t)) acc,
           g + (ts.map amount).sum) by
    simpa using h [] 0
  induction ts with
  | nil => intro acc g; simp
  | cons t ts ih =>
    intro acc g
    simp only [List.foldl_cons, List.map_cons, List.sum_cons]
    rw [ih]
    ring_nf

theorem dailyTotals_eq (ts : List Transaction) :
    dailyTotals ts = accumFold (fun t => t.date) ts := rfl

/-- Closed instance of `parse_transactions_reject`: the 7-field line of
spec §8 is discarded verbatim. -/
theorem parse_transactions_reject_witness :
    (shortLine ∈ [sampleLine, shortLine] ∧ trim shortLine = shortLine ∧
      ¬ shortLine.isEmpty = true ∧ claimReject shortLine = true) ∧
    shortLine ∈ (parse_transactions [sampleLine, shortLine]).discarded_records :=
  ⟨⟨by decide, by decide, by decide, by decide⟩,
   parse_transactions_reject [sampleLine, shortLine] shortLine
     (by decide) (by decide) (by decide) (by decide)⟩

theorem keyAmount_pos (key : Transaction → Str) (ts : List Transaction)
    (k : Str) (h : ∀ t ∈ ts, 0 < amount t) (hk : k ∈ ts.map key) :
    0 < keyAmount key ts k := by
  unfold keyAmount
  apply List.sum_pos
  · intro a ha
    obtain ⟨t, ht, rfl⟩ := List.mem_map.mp ha
    exact h t (List.mem_filter.mp ht).1
  · obtain ⟨t, ht, rfl⟩ := List.mem_map.mp hk
    have hmem : t ∈ ts.filter (fun u => decide (key u = key t)) :=
      List.mem_filter.mpr ⟨ht, by simp⟩
    intro hc
    rw [List.map_eq_nil_iff] at hc
    rw [hc] at hmem
    cases hmem

theorem regionTable_eq (ts : List Transaction) :
    regionTable ts
      = (firstSeen (ts.map (fun t => t.region))).map
          (fun k => regionFinalize ((ts.map amount).sum)
            (k, keyAmount (fun t => t.region) ts k,
                keyCount (fun t => t.region) ts k)) := by
  unfold regionTable
  rw [regionAccum_eq, accumFold_eq, List.map_map]
  rfl

/-- Claim C4: `region_wise_sales` reports for every region its amount sum
rounded to 2 decimals, its transaction count, and its percentage
`total_sales / grand_total * 100` rounded to 2 decimals (0.0 when the
grand total is 0, never a division error); the rows come out sorted by
`total_sales` descending, and rows with equal totals keep the first-seen
insertion order of the pre-sort table. -/
theorem region_wise_sales_spec (ts : List Transaction)
    (h : ∀ t ∈ ts, 0 < amount t) :
    (∀ e ∈ region_wise_sales ts,
      e.2.total_sales = round2 (keyAmount (fun t => t.region) ts e.1) ∧
      e.2.transaction_count = keyCount (fun t => t.region) ts e.1 ∧
      e.2.percentage =
        (if (ts.map amount).sum = 0 then 0
         else round2 (keyAmount (fun t => t.region) ts e.1
            / (ts.map amount).sum * 100))) ∧
    List.Pairwise (fun a b => b.2.total_sales ≤ a.2.total_sales)
      (region_wise_sales ts) ∧
    List.Perm (region_wise_sales ts) (regionTable ts) ∧
    (regionTable ts).map (fun e => e.1)
      = firstSeen (ts.map (fun t => t.region)) ∧
    (∀ a b : Str × RegionStats, [a, b].Sublist (regionTable ts) →
      b.2.total_sales ≤ a.2.total_sales →
      [a, b].Sublist (region_wise_sales ts)) := by
  haveI instTot :
      IsTotal (Str × RegionStats)
        (fun a b => b.2.total_sales ≤ a.2.total_sales) :=
    ⟨fun a b => le_total _ _⟩
  haveI instTrans :
      IsTrans (Str × RegionStats)
        (fun a b => b.2.total_sales ≤ a.2.total_sales) :=
    ⟨fun a b c h1 h2 => le_trans h2 h1⟩
  refine ⟨?_, ?_, ?_, ?_, ?_⟩
  · intro e he
    have hperm : List.Perm (region_wise_sales ts) (regionTable ts) :=
      List.perm_insertionSort _ _
    have htab : e ∈ regionTable ts := hperm.mem_iff.mp he
    rw [regionTable_eq] at htab
    obtain ⟨k, hkF, rfl⟩ := List.mem_map.mp htab
    have hkmem : k ∈ ts.map (fun t => t.region) := (firstSeen_mem _ _).mp hkF
    have hne : ¬ ts = [] := by
      intro hc
      rw [hc] at hkmem
      cases hkmem
    have hgrand : 0 < (ts.map amount).sum := by
      apply List.sum_pos
      · intro a ha
        obtain ⟨t, ht, rfl⟩ := List.mem_map.mp ha
        exact h t ht
      · intro hc
        rw [List.map_eq_nil_iff] at hc
        exact hne hc
    refine ⟨rfl, rfl, ?_⟩
    simp only [regionFinalize, if_pos hgrand, if_neg (ne_of_gt hgrand)]
  · exact List.sorted_insertionSort _ _
  · exact List.perm_insertionSort _ _
  · rw [regionTable_eq, List.map_map]
    simp [Function.comp_def, regionFinalize]
  · intro a b hsub hle
    exact List.pair_sublist_insertionSort hle hsub

/-- Closed instance of `region_wise_sales_spec` on a two-region input. -/
theorem region_wise_sales_spec_witness :
    (∀ t ∈ [txGood, txSouth], 0 < amount t) ∧
    ((∀ e ∈ region_wise_sales [txGood, txSouth],
      e.2.total_sales
          = round2 (keyAmount (fun t => t.region) [txGood, txSouth] e.1) ∧
      e.2.transaction_count
          = keyCount (fun t => t.region) [txGood, txSouth] e.1 ∧
      e.2.percentage =
        (if ([txGood, txSouth].map amount).sum = 0 then 0
         else round2 (keyAmount (fun t => t.region) [txGood, txSouth] e.1
            / ([txGood, txSouth].map amount).sum * 100))) ∧
    List.Pairwise (fun a b => b.2.total_sales ≤ a.2.total_sales)
      (region_wise_sales [txGood, txSouth]) ∧
    List.Perm (region_wise_sales [txGood, txSouth])
      (regionTable [txGood, txSouth]) ∧
    (regionTable [txGood, txSouth]).map (fun e => e.1)
      = firstSeen ([txGood, txSouth].map (fun t => t.region)) ∧
    (∀ a b : Str × RegionStats,
      [a, b].Sublist (regionTable [txGood, txSouth]) →
      b.2.total_sales ≤ a.2.total_sales →
      [a, b].Sublist (region_wise_sales [txGood, txSouth]))) :=
  ⟨by norm_num [amount, txGood, txSouth],
   region_wise_sales_spec [txGood, txSouth]
     (by norm_num [amount, txGood, txSouth])⟩

/-- The peak-selection fold either never updates (every revenue at most the
initial one) or lands on the first entry that strictly exceeds everything
before it and is not exceeded by anything after it. -/
theorem peak_foldl (L : List (Str × ℚ × Nat)) (s : Option Str × ℚ × Nat) :
    ((∀ q ∈ L, q.2.1 ≤ s.2.1) ∧ L.foldl peakStep s = s) ∨
    (∃ L₁ p L₂, L = L₁ ++ p :: L₂ ∧ s.2.1 < p.2.1 ∧
      (∀ q ∈ L₁, q.2.1 < p.2.1) ∧ (∀ q ∈ L₂, q.2.1 ≤ p.2.1) ∧
      L.foldl peakStep s = (some p.1, p.2.1, p.2.2)) := by
  induction L using List.reverseRecOn with
  | nil => exact Or.inl ⟨by simp, rfl⟩
  | append_singleton L q ih =>
    rw [List.foldl_append, List.foldl_cons, List.foldl_nil]
    rcases ih with ⟨hle, heq⟩ | ⟨L₁, p, L₂, hsplit, hs, h₁, h₂, heq⟩
    · rw [heq]
      unfold peakStep
      by_cases hq : s.2.1 < q.2.1
      · rw [if_pos hq]
        refine Or.inr ⟨L, q, [], by simp, hq, ?_, by simp, rfl⟩
        intro x hx
        exact lt_of_le_of_lt (hle x hx) hq
      · rw [if_neg hq]
        refine Or.inl ⟨?_, rfl⟩
        intro x hx
        rcases List.mem_append.mp hx with hx | hx
        · exact hle x hx
        · rw [List.mem_singleton] at hx
          subst hx
          exact le_of_not_lt hq
    · rw [heq]
      unfold peakStep
      dsimp only
      by_cases hq : p.2.1 < q.2.1
      · rw [if_pos hq]
        refine Or.inr ⟨L₁ ++ p :: L₂, q, [], by simp [hsplit],
          lt_trans hs hq, ?_, by simp, rfl⟩
        intro x hx
        rcases List.mem_append.mp hx with hx | hx
        · exact lt_trans (h₁ x hx) hq
        · rcases List.mem_cons.mp hx with rfl | hx
          · exact hq
          · exact lt_of_le_of_lt (h₂ x hx) hq
      · rw [if_neg hq]
        refine Or.inr ⟨L₁, p, L₂ ++ [q], by simp [hsplit], hs, h₁, ?_, rfl⟩
        intro x hx
        rcases List.mem_append.mp hx with hx | hx
        · exact h₂ x hx
        · rw [List.mem_singleton] at hx
          subst hx
          exact le_of_not_lt hq

theorem round2_zero : round2 0 = 0 := by
  norm_num [round2, rhe]

/-- Claim C7: `find_peak_sales_day` returns the date with the strictly
greatest accumulated revenue (rounded to 2 decimals) together with that
date's transaction count; on revenue ties the first date encountered wins
(every date listed before the winner in first-seen order has strictly
smaller revenue); the empty input yields the `(None, 0.0, 0)` sentinel. -/
theorem find_peak_sales_day_spec (ts : List Transaction)
    (h : ∀ t ∈ ts, 0 < amount t) :
    (ts = [] → find_peak_sales_day ts = (none, 0, 0)) ∧
    (¬ ts = [] → ∃ d pre post,
      firstSeen (ts.map (fun t => t.date)) = pre ++ d :: post ∧
      find_peak_sales_day ts
        = (some d, round2 (keyAmount (fun t => t.date) ts d),
           keyCount (fun t => t.date) ts d) ∧
      (∀ d' ∈ firstSeen (ts.map (fun t => t.date)),
        keyAmount (fun t => t.date) ts d'
          ≤ keyAmount (fun t => t.date) ts d) ∧
      (∀ d' ∈ pre,
        keyAmount (fun t => t.date) ts d'
          < keyAmount (fun t => t.date) ts d)) := by
  constructor
  · rintro rfl
    simp [find_peak_sales_day, dailyTotals, round2_zero]
  · intro hne
    have hL := peak_foldl
      ((firstSeen (ts.map (fun t => t.date))).map
        (fun k => (k, keyAmount (fun t => t.date) ts k,
                      keyCount (fun t => t.date) ts k)))
      (none, 0, 0)
    have hdt : dailyTotals ts
        = (firstSeen (ts.map (fun t => t.date))).map
            (fun k => (k, keyAmount (fun t => t.date) ts k,
                          keyCount (fun t => t.date) ts k)) := by
      rw [dailyTotals_eq, accumFold_eq]
    rcases hL with ⟨hle, heq⟩ | ⟨L₁, p, L₂, hsplit, hs, h₁, h₂, heq⟩
    · exfalso
      obtain ⟨t, ht⟩ := List.exists_mem_of_ne_nil ts hne
      have hkF : t.date ∈ firstSeen (ts.map (fun u => u.date)) :=
        (firstSeen_mem _ _).mpr (List.mem_map_of_mem _ ht)
      have hq := hle (t.date, keyAmount (fun u => u.date) ts t.date,
                      keyCount (fun u => u.date) ts t.date)
        (List.mem_map_of_mem _ hkF)
      have hpos := keyAmount_pos (fun u => u.date) ts t.date h
        (List.mem_map_of_mem _ ht)
      exact absurd hq (not_le.mpr hpos)
    · obtain ⟨F₁, F₂, hF, hm₁, hm₂⟩ := List.map_eq_append_iff.mp hsplit
      obtain ⟨d, F₂', hF₂, hfd, hm₂'⟩ := List.map_eq_cons_iff.mp hm₂
      refine ⟨d, F₁, F₂', by rw [hF, hF₂], ?_, ?_, ?_⟩
      · have hpeak : (dailyTotals ts).foldl peakStep (none, 0, 0)
            = (some p.1, p.2.1, p.2.2) := by
          rw [hdt]; exact heq
        unfold find_peak_sales_day
        rw [hpeak, ← hfd]
      · intro d' hd'
        rw [hF, hF₂] at hd'
        have hp1 : p.2.1 = keyAmount (fun t => t.date) ts d := by
          rw [← hfd]
        rcases List.mem_append.mp hd' with hd' | hd'
        · have hmem : (d', keyAmount (fun t => t.date) ts d',
              keyCount (fun t => t.date) ts d') ∈ L₁ := by
            rw [← hm₁]; exact List.mem_map_of_mem _ hd'
          exact le_of_lt (hp1 ▸ h₁ _ hmem)
        · rcases List.mem_cons.mp hd' with rfl | hd'
          · exact le_refl _
          · have hmem : (d', keyAmount (fun t => t.date) ts d',
                keyCount (fun t => t.date) ts d') ∈ L₂ := by
              rw [← hm₂']; exact List.mem_map_of_mem _ hd'
            exact hp1 ▸ h₂ _ hmem
      · intro d' hd'
        have hp1 : p.2.1 = keyAmount (fun t => t.date) ts d := by
          rw [← hfd]
        have hmem : (d', keyAmount (fun t => t.date) ts d',
            keyCount (fun t => t.date) ts d') ∈ L₁ := by
          rw [← hm₁]; exact List.mem_map_of_mem _ hd'
        exact hp1 ▸ h₁ _ hmem

/-- Closed instance of `find_peak_sales_day_spec` on a two-date input. -/
theorem find_peak_sales_day_spec_witness :
    (∀ t ∈ [txGood, txSouth], 0 < amount t) ∧
    (([txGood, txSouth] = [] →
        find_peak_sales_day [txGood, txSouth] = (none, 0, 0)) ∧
     (¬ [txGood, txSouth] = [] → ∃ d pre post,
        firstSeen ([txGood, txSouth].map (fun t => t.date)) = pre ++ d :: post ∧
        find_peak_sales_day [txGood, txSouth]
          = (some d, round2 (keyAmount (fun t => t.date) [txGood, txSouth] d),
             keyCount (fun t => t.date) [txGood, txSouth] d) ∧
        (∀ d' ∈ firstSeen ([txGood, txSouth].map (fun t => t.date)),
          keyAmount (fun t => t.date) [txGood, txSouth] d'
            ≤ keyAmount (fun t => t.date) [txGood, txSouth] d) ∧
        (∀ d' ∈ pre,
          keyAmount (fun t => t.date) [txGood, txSouth] d'
            < keyAmount (fun t => t.date) [txGood, txSouth] d))) :=
  ⟨by norm_num [amount, txGood, txSouth],
   find_peak_sales_day_spec [txGood, txSouth]
     (by norm_num [amount, txGood, txSouth])⟩

/-! ### Decimal rendering round-trip -/

theorem digitsRev_val (fuel n : Nat) (h : n ≤ fuel) :
    (digitsRev fuel n).foldr (fun d a => 10 * a + d) 0 = n := by
  induction fuel generalizing n with
  | zero =>
    simp only [digitsRev, List.foldr_nil]
    omega
  | succ fuel ih =>
    unfold digitsRev
    by_cases hn : n = 0
    · simp [hn]
    · simp only [hn, if_false, List.foldr_cons]
      have hdiv : n / 10 ≤ fuel := by
        have := Nat.div_lt_self (by omega : 0 < n) (by omega : 1 < 10)
        omega
      rw [ih (n / 10) hdiv]
      omega

theorem digitsRev_lt_ten (fuel n : Nat) : ∀ d ∈ digitsRev fuel n, d < 10 := by
  induction fuel generalizing n with
  | zero => simp [digitsRev]
  | succ fuel ih =>
    unfold digitsRev
    by_cases hn : n = 0
    · simp [hn]
    · simp only [hn, if_false]
      intro d hd
      rcases List.mem_cons.mp hd with rfl | hd
      · exact Nat.mod_lt _ (by omega)
      · exact ih _ d hd

theorem digitsRev_length (fuel n k : Nat) (h : n < 10 ^ k) :
    (digitsRev fuel n).length ≤ k := by
  induction fuel generalizing n k with
  | zero => simp [digitsRev]
  | succ fuel ih =>
    unfold digitsRev
    by_cases hn : n = 0
    · simp [hn]
    · simp only [hn, if_false, List.length_cons]
      have hk : ¬ k = 0 := by
        intro hc
        rw [hc, pow_zero] at h
        omega
      have hsub : n / 10 < 10 ^ (k - 1) := by
        have h10 : 10 ^ k = 10 * 10 ^ (k - 1) := by
          conv_lhs => rw [show k = (k - 1) + 1 by omega]
          ring
        rw [Nat.div_lt_iff_lt_mul (by omega : 0 < 10)]
        omega
      have := ih (n / 10) (k - 1) hsub
      omega

theorem digitChar_facts (d : Nat) (h : d < 10) :
    (Nat.digitChar d).isDigit = true ∧ digitVal (Nat.digitChar d) = d ∧
    ¬ Nat.digitChar d = '|' ∧ ¬ Nat.digitChar d = ',' ∧
    ¬ Nat.digitChar d = '-' ∧ ¬ Nat.digitChar d = '+' ∧
    ¬ Nat.digitChar d = '.' ∧ (Nat.digitChar d).isWhitespace = false := by
  interval_cases d <;> exact ⟨by decide, by decide, by decide, by decide,
    by decide, by decide, by decide, by decide⟩

theorem charsVal_digits_rev (ds : List Nat) (h : ∀ d ∈ ds, d < 10) :
    charsVal ((ds.map Nat.digitChar).reverse)
      = ds.foldr (fun d a => 10 * a + d) 0 := by
  induction ds with
  | nil => rfl
  | cons d ds ih =>
    have hd : d < 10 := h d (by simp)
    simp only [List.map_cons, List.reverse_cons, List.foldr_cons]
    unfold charsVal
    rw [List.foldl_append]
    have hstep : List.foldl (fun a c => 10 * a + digitVal c)
        (List.foldl (fun a c => 10 * a + digitVal c) 0
          (ds.map Nat.digitChar).reverse) [Nat.digitChar d]
        = 10 * charsVal ((ds.map Nat.digitChar).reverse)
            + digitVal (Nat.digitChar d) := rfl
    rw [hstep, ih (fun x hx => h x (by simp [hx])),
      (digitChar_facts d hd).2.1]

theorem charsVal_natToChars (n : Nat) : charsVal (natToChars n) = n := by
  unfold natToChars
  by_cases hn : n = 0
  · subst hn
    decide
  · simp only [hn, if_false]
    rw [charsVal_digits_rev _ (digitsRev_lt_ten n n), digitsRev_val n n le_rfl]

theorem natToChars_props (n : Nat) :
    ∀ c ∈ natToChars n, c.isDigit = true ∧ ¬ c = '|' ∧ ¬ c = ',' ∧
      ¬ c = '-' ∧ ¬ c = '+' ∧ ¬ c = '.' ∧ c.isWhitespace = false := by
  unfold natToChars
  by_cases hn : n = 0
  · simp only [hn, if_true]
    intro c hc
    rw [List.mem_singleton] at hc
    subst hc
    exact ⟨by decide, by decide, by decide, by decide, by decide, by decide,
      by decide⟩
  · simp only [hn, if_false, List.mem_reverse, List.mem_map]
    rintro c ⟨d, hd, rfl⟩
    have hfacts := digitChar_facts d (digitsRev_lt_ten _ _ d hd)
    exact ⟨hfacts.1, hfacts.2.2.1, hfacts.2.2.2.1, hfacts.2.2.2.2.1,
      hfacts.2.2.2.2.2.1, hfacts.2.2.2.2.2.2.1, hfacts.2.2.2.2.2.2.2⟩

theorem natToChars_ne_nil (n : Nat) : ¬ natToChars n = [] := by
  unfold natToChars
  by_cases hn : n = 0
  · simp [hn]
  · simp only [hn, if_false]
    intro hc
    rw [List.reverse_eq_nil_iff, List.map_eq_nil_iff] at hc
    cases hn' : n with
    | zero => exact hn hn'
    | succ m =>
      rw [hn'] at hc
      unfold digitsRev at hc
      rw [if_neg (by omega : ¬ m + 1 = 0)] at hc
      cases hc

theorem natToChars_length (n k : Nat) (hn : n < 10 ^ k) (hk : 0 < k) :
    (natToChars n).length ≤ k := by
  unfold natToChars
  by_cases h0 : n = 0
  · simp only [h0, if_true, List.length_singleton]
    omega
  · simp only [h0, if_false, List.length_reverse, List.length_map]
    exact digitsRev_length n n k hn

theorem allDigits_natToChars (n : Nat) : allDigits (natToChars n) = true := by
  unfold allDigits
  rw [List.all_eq_true]
  intro c hc
  exact (natToChars_props n c hc).1

theorem charsVal_leading_zeros (j : Nat) (s : Str) :
    charsVal (List.replicate j '0' ++ s) = charsVal s := by
  induction j with
  | zero => rfl
  | succ j ih =>
    have : List.replicate (j + 1) '0' ++ s = '0' :: (List.replicate j '0' ++ s) := by
      simp [List.replicate_succ]
    rw [this]
    unfold charsVal
    rw [List.foldl_cons]
    have h0 : (10 : Nat) * 0 + digitVal '0' = 0 := by decide
    rw [h0]
    exact ih

/-! ### Splitting, joining and trimming -/

theorem splitOn_no_sep (sep : Char) (s : Str) (h : sep ∉ s) :
    splitOn sep s = [s] := by
  induction s with
  | nil => rfl
  | cons c rest ih =>
    have hc : ¬ c = sep := fun he => h (he ▸ List.mem_cons_self c rest)
    unfold splitOn
    rw [if_neg hc, ih (fun hm => h (List.mem_cons_of_mem _ hm))]

theorem splitOn_append_sep (sep : Char) (A B : Str) (h : sep ∉ A) :
    splitOn sep (A ++ sep :: B) = A :: splitOn sep B := by
  induction A with
  | nil =>
    simp only [List.nil_append, splitOn]
    rw [if_true]
  | cons c A ih =>
    have hc : ¬ c = sep := fun he => h (he ▸ List.mem_cons_self c A)
    rw [List.cons_append]
    simp only [splitOn]
    rw [if_neg hc, ih (fun hm => h (List.mem_cons_of_mem _ hm))]

theorem splitOn_joinPipe (fs : List Str) (hne : ¬ fs = [])
    (h : ∀ f ∈ fs, '|' ∉ f) :
    splitOn '|' (joinPipe fs) = fs := by
  induction fs with
  | nil => exact absurd rfl hne
  | cons f fs ih =>
    cases fs with
    | nil => exact splitOn_no_sep '|' f (h f (by simp))
    | cons g gs =>
      show splitOn '|' (f ++ '|' :: joinPipe (g :: gs)) = f :: g :: gs
      rw [splitOn_append_sep '|' f _ (h f (by simp)),
        ih (by simp) (fun x hx => h x (List.mem_cons_of_mem _ hx))]

theorem trim_of_noWsEnds (s : Str) (h : noWsEnds s = true) : trim s = s := by
  unfold noWsEnds at h
  rw [Bool.and_eq_true] at h
  obtain ⟨h1, h2⟩ := h
  unfold trim
  have hd : s.dropWhile Char.isWhitespace = s := by
    cases s with
    | nil => rfl
    | cons c rest =>
      simp only [List.head?_cons, Bool.not_eq_true'] at h1
      rw [List.dropWhile_cons, if_neg (by simp [h1])]
  rw [hd]
  have hrev : s.reverse.dropWhile Char.isWhitespace = s.reverse := by
    cases hs : s.reverse with
    | nil => rfl
    | cons c rest =>
      have hlast : s.getLast? = some c := by
        rw [← List.head?_reverse, hs, List.head?_cons]
      rw [hlast] at h2
      simp only [Bool.not_eq_true'] at h2
      rw [List.dropWhile_cons, if_neg (by simp [h2])]
  rw [hrev, List.reverse_reverse]

theorem noWsEnds_of_all (s : Str)
    (h : ∀ c ∈ s, c.isWhitespace = false) : noWsEnds s = true := by
  unfold noWsEnds
  rw [Bool.and_eq_true]
  constructor
  · cases s with
    | nil => rfl
    | cons c rest =>
      simp only [List.head?_cons]
      rw [h c (List.mem_cons_self c rest)]
      rfl
  · cases hs : s.getLast? with
    | none => rfl
    | some c =>
      show (!c.isWhitespace) = true
      rw [h c (List.mem_of_getLast?_eq_some hs)]
      rfl

/-! ### Numeric parse inverts numeric rendering -/

theorem parseInt_intStr (q : Int) (hq : 0 < q) :
    parseInt (intStr q) = some q := by
  unfold intStr
  rw [if_neg (by omega : ¬ q < 0)]
  cases hs : natToChars q.natAbs with
  | nil => exact absurd hs (natToChars_ne_nil _)
  | cons c rest =>
    have hc := natToChars_props q.natAbs c
      (by rw [hs]; exact List.mem_cons_self c rest)
    unfold parseInt
    split
    next r heq =>
      rw [List.cons.injEq] at heq
      exact absurd heq.1 hc.2.2.2.1
    next r heq =>
      rw [List.cons.injEq] at heq
      exact absurd heq.1 hc.2.2.2.2.1
    next =>
      rw [if_pos ⟨by simp, by rw [← hs]; exact allDigits_natToChars _⟩]
      rw [← hs, charsVal_natToChars]
      congr 1
      omega

theorem parseFloat_floatStrNN (q : ℚ) (hq0 : 0 ≤ q)
    (hden : (q * 10 ^ q.den).den = 1) :
    parseFloat (floatStrNN q) = some q := by
  have hk : 0 < q.den := q.den_pos
  have hMnn : 0 ≤ (q * 10 ^ q.den).num :=
    Rat.num_nonneg.mpr (mul_nonneg hq0 (by positivity))
  have hMq : (((q * 10 ^ q.den).num : ℤ) : ℚ) = q * 10 ^ q.den := by
    rw [← Rat.num_div_den (q * 10 ^ q.den), hden]
    simp
  set k := q.den with hkdef
  set m := (q * 10 ^ k).num.toNat with hmdef
  have hmQ : ((m : ℕ) : ℚ) = q * 10 ^ k := by
    have h1 : ((m : ℕ) : ℤ) = (q * 10 ^ k).num := Int.toNat_of_nonneg hMnn
    have h2 : (((m : ℕ) : ℤ) : ℚ) = ((m : ℕ) : ℚ) := by push_cast; ring
    rw [← h2, h1, hMq]
  have hfl : floatStrNN q = natToChars (m / 10 ^ k) ++ '.' :: padDigits k (m % 10 ^ k) := rfl
  rw [hfl]
  cases hs : natToChars (m / 10 ^ k) with
  | nil => exact absurd hs (natToChars_ne_nil _)
  | cons c rest =>
    have hcp := natToChars_props (m / 10 ^ k) c
      (by rw [hs]; exact List.mem_cons_self c rest)
    rw [List.cons_append]
    unfold parseFloat
    split
    next r heq =>
      rw [List.cons.injEq] at heq
      exact absurd heq.1 hcp.2.2.2.1
    next r heq =>
      rw [List.cons.injEq] at heq
      exact absurd heq.1 hcp.2.2.2.2.1
    next =>
      rw [← List.cons_append, ← hs]
      have hdot1 : '.' ∉ natToChars (m / 10 ^ k) := fun hm =>
        (natToChars_props _ _ hm).2.2.2.2.2.1 rfl
      have hdot2 : '.' ∉ padDigits k (m % 10 ^ k) := by
        intro hm
        unfold padDigits at hm
        rcases List.mem_append.mp hm with hm | hm
        · have h0 := List.eq_of_mem_replicate hm
          simp at h0
        · exact (natToChars_props _ _ hm).2.2.2.2.2.1 rfl
      unfold parseUnsigned
      rw [splitOn_append_sep '.' _ _ hdot1, splitOn_no_sep '.' _ hdot2]
      dsimp only
      have hcond : (¬ (natToChars (m / 10 ^ k)).isEmpty ∨
            ¬ (padDigits k (m % 10 ^ k)).isEmpty) ∧
          allDigits (natToChars (m / 10 ^ k)) = true ∧
          allDigits (padDigits k (m % 10 ^ k)) = true := by
        refine ⟨Or.inl ?_, allDigits_natToChars _, ?_⟩
        · simp only [List.isEmpty_eq_true]
          exact natToChars_ne_nil _
        · unfold padDigits allDigits
          rw [List.all_eq_true]
          intro x hx
          rcases List.mem_append.mp hx with hx | hx
          · have h0 := List.eq_of_mem_replicate hx
            subst h0
            decide
          · exact (natToChars_props _ _ hx).1
      rw [if_pos hcond]
      congr 1
      have hlen : (padDigits k (m % 10 ^ k)).length = k := by
        unfold padDigits
        rw [List.length_append, List.length_replicate]
        have hlt : m % 10 ^ k < 10 ^ k := Nat.mod_lt _ (by positivity)
        have hle := natToChars_length (m % 10 ^ k) k hlt hk
        omega
      have hfp : charsVal (padDigits k (m % 10 ^ k)) = m % 10 ^ k := by
        unfold padDigits
        rw [charsVal_leading_zeros, charsVal_natToChars]
      rw [hlen, hfp, charsVal_natToChars]
      have hsplitm : (m / 10 ^ k) * 10 ^ k + m % 10 ^ k = m := by
        rw [Nat.mul_comm]
        exact Nat.div_add_mod m (10 ^ k)
      have key : ((m / 10 ^ k : ℕ) : ℚ) * 10 ^ k + ((m % 10 ^ k : ℕ) : ℚ)
          = ((m : ℕ) : ℚ) := by
        exact_mod_cast congrArg (fun n : ℕ => (n : ℚ)) hsplitm
      have h10 : ((10 : ℚ)) ^ k ≠ 0 := by positivity
      field_simp
      linarith [key, hmQ]

theorem parseFloat_floatStr (q : ℚ) (hq0 : 0 < q)
    (hden : (q * 10 ^ q.den).den = 1) :
    parseFloat (floatStr q) = some q := by
  unfold floatStr
  rw [if_neg (by exact not_lt.mpr (le_of_lt hq0))]
  exact parseFloat_floatStrNN q (le_of_lt hq0) hden

theorem intStr_clean (q : Int) (hq : 0 < q) :
    ∀ c ∈ intStr q, ¬ c = '|' ∧ ¬ c = ',' ∧ c.isWhitespace = false := by
  intro c hc
  unfold intStr at hc
  rw [if_neg (by omega : ¬ q < 0)] at hc
  have hp := natToChars_props _ _ hc
  exact ⟨hp.2.1, hp.2.2.1, hp.2.2.2.2.2.2⟩

theorem floatStrNN_clean (q : ℚ) :
    ∀ c ∈ floatStrNN q, ¬ c = '|' ∧ ¬ c = ',' ∧ c.isWhitespace = false := by
  intro c hc
  unfold floatStrNN at hc
  rcases List.mem_append.mp hc with hc | hc
  · have hp := natToChars_props _ _ hc
    exact ⟨hp.2.1, hp.2.2.1, hp.2.2.2.2.2.2⟩
  · rcases List.mem_cons.mp hc with rfl | hc
    · exact ⟨by decide, by decide, by decide⟩
    · unfold padDigits at hc
      rcases List.mem_append.mp hc with hc | hc
      · have h0 := List.eq_of_mem_replicate hc
        subst h0
        exact ⟨by decide, by decide, by decide⟩
      · have hp := natToChars_props _ _ hc
        exact ⟨hp.2.1, hp.2.2.1, hp.2.2.2.2.2.2⟩

theorem floatStr_clean (q : ℚ) :
    ∀ c ∈ floatStr q, ¬ c = '|' ∧ ¬ c = ',' ∧ c.isWhitespace = false := by
  intro c hc
  unfold floatStr at hc
  by_cases hq : q < 0
  · rw [if_pos hq] at hc
    rcases List.mem_cons.mp hc with rfl | hc
    · exact ⟨by decide, by decide, by decide⟩
    · exact floatStrNN_clean _ c hc
  · rw [if_neg hq] at hc
    exact floatStrNN_clean _ c hc

theorem commaToSpace_eq (s : Str) (h : ',' ∉ s) : commaToSpace s = s := by
  unfold commaToSpace
  have : s.map (fun c => if c = ',' then ' ' else c) = s.map id := by
    apply List.map_congr_left
    intro c hc
    have : ¬ c = ',' := fun he => h (he ▸ hc)
    simp [this]
  rw [this, List.map_id]

theorem removeCommas_eq (s : Str) (h : ',' ∉ s) : removeCommas s = s := by
  unfold removeCommas
  rw [List.filter_eq_self]
  intro c hc
  have : ¬ c = ',' := fun he => h (he ▸ hc)
  simp [this]

/-- Claim C9's round trip at the level of one line: a `parseStable`
transaction rendered onto the eight base fields of the saved line format
parses back to itself. -/
theorem parseRecord_baseLine (t : Transaction) (h : parseStable t) :
    parseRecord (baseLine t) = some t := by
  obtain ⟨⟨htid1, htid2⟩, ⟨hdate1, hdate2⟩, ⟨hpid1, hpid2⟩,
    ⟨hpn1, hpn2, hpn3⟩, ⟨hcid1, hcid2⟩, ⟨hreg1, hreg2⟩,
    hT, hcne, hrne, hq, hp, hdec⟩ := h
  have hips := intStr_clean t.quantity hq
  have hfps := floatStr_clean t.unitPrice
  have hsplit : splitOn '|' (baseLine t)
      = [t.transactionID, t.date, t.productID, t.productName,
         intStr t.quantity, floatStr t.unitPrice, t.customerID, t.region] := by
    apply splitOn_joinPipe _ (by simp)
    intro f hf
    simp only [List.mem_cons, List.not_mem_nil, or_false] at hf
    rcases hf with rfl | rfl | rfl | rfl | rfl | rfl | rfl | rfl
    · exact htid2
    · exact hdate2
    · exact hpid2
    · exact hpn2
    · exact fun hm => (hips _ hm).1 rfl
    · exact fun hm => (hfps _ hm).1 rfl
    · exact hcid2
    · exact hreg2
  unfold parseRecord
  rw [hsplit]
  dsimp only
  rw [trim_of_noWsEnds _ htid1, trim_of_noWsEnds _ hcid1,
    trim_of_noWsEnds _ hreg1, trim_of_noWsEnds _ hdate1,
    trim_of_noWsEnds _ hpid1]
  rw [commaToSpace_eq _ hpn3, trim_of_noWsEnds _ hpn1]
  rw [removeCommas_eq (intStr t.quantity) (fun hm => (hips _ hm).2.1 rfl),
    trim_of_noWsEnds (intStr t.quantity)
      (noWsEnds_of_all _ (fun c hc => (hips c hc).2.2)),
    parseInt_intStr _ hq]
  rw [removeCommas_eq (floatStr t.unitPrice) (fun hm => (hfps _ hm).2.1 rfl),
    trim_of_noWsEnds (floatStr t.unitPrice)
      (noWsEnds_of_all _ (fun c hc => (hfps c hc).2.2)),
    parseFloat_floatStr _ hp hdec]
  have hgate1 : ¬ ¬ startsWith 'T' t.transactionID = true := by simp [hT]
  have hgate2 : ¬ (t.customerID.isEmpty = true ∨ t.region.isEmpty = true) := by
    simp only [List.isEmpty_eq_true]
    exact fun hc => hc.elim hcne hrne
  have hgate3 : ¬ t.quantity ≤ 0 := by omega
  dsimp only
  rw [if_neg hgate1, if_neg hgate2, if_neg hgate3, if_neg (not_le.mpr hp)]

theorem intStr_noPipe (q : Int) : '|' ∉ intStr q := by
  intro hm
  unfold intStr at hm
  by_cases hq : q < 0
  · rw [if_pos hq] at hm
    rcases List.mem_cons.mp hm with he | hm
    · cases he
    · exact (natToChars_props _ _ hm).2.1 rfl
  · rw [if_neg hq] at hm
    exact (natToChars_props _ _ hm).2.1 rfl

theorem floatStr_noPipe (q : ℚ) : '|' ∉ floatStr q :=
  fun hm => (floatStr_clean q _ hm).1 rfl

theorem splitOn_ne_nil (sep : Char) (s : Str) : ¬ splitOn sep s = [] := by
  cases s with
  | nil => simp [splitOn]
  | cons c rest =>
    unfold splitOn
    by_cases hc : c = sep
    · simp [hc]
    · rw [if_neg hc]
      cases hsp : splitOn sep rest <;> simp

/-- The decomposition of a saved line: base fields, then the API tail. -/
theorem enrichedLine_decomp (e : EnrichedTransaction) :
    enrichedLine e
      = e.base.transactionID ++ '|' :: (e.base.date ++ '|' ::
          (e.base.productID ++ '|' :: (e.base.productName ++ '|' ::
            (intStr e.base.quantity ++ '|' :: (floatStr e.base.unitPrice ++ '|' ::
              (e.base.customerID ++ '|' :: (e.base.region ++ '|' ::
                joinPipe [optStr e.api_category, optStr e.api_brand,
                  optRatStr e.api_rating, boolStr e.api_match]))))))) := rfl

theorem splitOn_enrichedLine (e : EnrichedTransaction)
    (h1 : '|' ∉ e.base.transactionID) (h2 : '|' ∉ e.base.date)
    (h3 : '|' ∉ e.base.productID) (h4 : '|' ∉ e.base.productName)
    (h5 : '|' ∉ e.base.customerID) (h6 : '|' ∉ e.base.region) :
    splitOn '|' (enrichedLine e)
      = [e.base.transactionID, e.base.date, e.base.productID,
         e.base.productName, intStr e.base.quantity, floatStr e.base.unitPrice,
         e.base.customerID, e.base.region]
        ++ splitOn '|' (joinPipe [optStr e.api_category, optStr e.api_brand,
             optRatStr e.api_rating, boolStr e.api_match]) := by
  rw [enrichedLine_decomp,
    splitOn_append_sep '|' _ _ h1, splitOn_append_sep '|' _ _ h2,
    splitOn_append_sep '|' _ _ h3, splitOn_append_sep '|' _ _ h4,
    splitOn_append_sep '|' _ _ (intStr_noPipe _),
    splitOn_append_sep '|' _ _ (floatStr_noPipe _),
    splitOn_append_sep '|' _ _ h5, splitOn_append_sep '|' _ _ h6]
  rfl

/-- Every line written by `save_enriched_data` has more than 8 `|`-fields,
so `parse_transactions` discards it whole (and keeps the line verbatim in
the discard list). -/
theorem parse_enrichedLine (e : EnrichedTransaction)
    (hT : startsWith 'T' e.base.transactionID = true)
    (h1 : '|' ∉ e.base.transactionID) (h2 : '|' ∉ e.base.date)
    (h3 : '|' ∉ e.base.productID) (h4 : '|' ∉ e.base.productName)
    (h5 : '|' ∉ e.base.customerID) (h6 : '|' ∉ e.base.region) :
    parse_transactions [enrichedLine e] = ⟨[], 1, [enrichedLine e], 1⟩ := by
  have hsplit := splitOn_enrichedLine e h1 h2 h3 h4 h5 h6
  obtain ⟨x, tail, htail⟩ :
      ∃ x tail, splitOn '|' (joinPipe [optStr e.api_category,
        optStr e.api_brand, optRatStr e.api_rating, boolStr e.api_match])
          = x :: tail := by
    cases hsp : splitOn '|' (joinPipe [optStr e.api_category,
        optStr e.api_brand, optRatStr e.api_rating, boolStr e.api_match]) with
    | nil => exact absurd hsp (splitOn_ne_nil _ _)
    | cons x tail => exact ⟨x, tail, rfl⟩
  rw [htail] at hsplit
  have hcr : claimReject (enrichedLine e) = true := by
    unfold claimReject
    rw [hsplit]
    rfl
  obtain ⟨d, rest, htid, hd⟩ :
      ∃ d rest, e.base.transactionID = d :: rest ∧ d = 'T' := by
    cases htid : e.base.transactionID with
    | nil => rw [htid] at hT; cases hT
    | cons d rest =>
      refine ⟨d, rest, rfl, ?_⟩
      rw [htid] at hT
      simpa [startsWith] using hT
  have hhead : (enrichedLine e).head? = some 'T' := by
    rw [enrichedLine_decomp, List.head?_append, htid, hd]
    rfl
  have hstep : ∀ (A : Str) (c : Char) (B : Str),
      (A ++ c :: B).getLast? = (c :: B).getLast? := by
    intro A c B
    rw [List.getLast?_append]
    cases hg : (c :: B).getLast? with
    | none => simp at hg
    | some y => rfl
  have hexp : enrichedLine e
      = e.base.transactionID ++ '|' :: (e.base.date ++ '|' ::
          (e.base.productID ++ '|' :: (e.base.productName ++ '|' ::
            (intStr e.base.quantity ++ '|' :: (floatStr e.base.unitPrice ++ '|' ::
              (e.base.customerID ++ '|' :: (e.base.region ++ '|' ::
                (optStr e.api_category ++ '|' :: (optStr e.api_brand ++ '|' ::
                  (optRatStr e.api_rating ++ '|' ::
                    boolStr e.api_match)))))))))) := rfl
  have hlast : (enrichedLine e).getLast? = some 'e' := by
    rw [hexp, hstep, ← List.cons_append, hstep, ← List.cons_append, hstep,
      ← List.cons_append, hstep, ← List.cons_append, hstep,
      ← List.cons_append, hstep, ← List.cons_append, hstep,
      ← List.cons_append, hstep, ← List.cons_append, hstep,
      ← List.cons_append, hstep, ← List.cons_append, hstep]
    cases hb : e.api_match <;> rfl
  have hws : noWsEnds (enrichedLine e) = true := by
    unfold noWsEnds
    rw [hhead, hlast]
    rfl
  have htrim : trim (enrichedLine e) = enrichedLine e :=
    trim_of_noWsEnds _ hws
  have hne : (enrichedLine e).isEmpty = false := by
    rw [enrichedLine_decomp, htid]
    rfl
  show parseStep ⟨[], 0, [], 0⟩ (enrichedLine e) = ⟨[], 1, [enrichedLine e], 1⟩
  unfold parseStep
  dsimp only
  rw [htrim, hne, claimReject_parseRecord _ hcr]
  rfl

/-- Claim C9 counterexample: for a concrete enriched transaction built from
the spec §8 scenario, encoding with the `save_enriched_data` line format
and parsing back with `parse_transactions` recovers nothing — the line is
discarded (12 fields, not 8), so the eight base fields are not recovered. -/
theorem save_parse_no_roundtrip :
    (parse_transactions [enrichedLine (enrichOne [] txGood)]).parsed = [] ∧
    (parse_transactions [enrichedLine (enrichOne [] txGood)]).discarded_count
      = 1 := by
  have h := parse_enrichedLine (enrichOne [] txGood)
    (by decide) (by decide) (by decide) (by decide) (by decide) (by decide)
    (by decide)
  rw [h]
  exact ⟨rfl, rfl⟩

/-- Claim C9 (amended): a line written by `save_enriched_data` has 12
pipe-delimited fields, so `parse_transactions` discards it rather than
recovering the transaction; the eight base fields are nevertheless encoded
exactly as the first eight fields of the line, and parsing those eight
fields as a record recovers the original transaction field for field. -/
theorem save_enriched_base_roundtrip (e : EnrichedTransaction)
    (h : parseStable e.base) :
    (splitOn '|' (enrichedLine e)).take 8
      = [e.base.transactionID, e.base.date, e.base.productID,
         e.base.productName, intStr e.base.quantity, floatStr e.base.unitPrice,
         e.base.customerID, e.base.region] ∧
    parseRecord (joinPipe ((splitOn '|' (enrichedLine e)).take 8))
      = some e.base ∧
    parse_transactions [enrichedLine e] = ⟨[], 1, [enrichedLine e], 1⟩ := by
  obtain ⟨⟨htid1, htid2⟩, ⟨hdate1, hdate2⟩, ⟨hpid1, hpid2⟩,
    ⟨hpn1, hpn2, hpn3⟩, ⟨hcid1, hcid2⟩, ⟨hreg1, hreg2⟩,
    hT, hcne, hrne, hq, hp, hdec⟩ := h
  have htake : (splitOn '|' (enrichedLine e)).take 8
      = [e.base.transactionID, e.base.date, e.base.productID,
         e.base.productName, intStr e.base.quantity, floatStr e.base.unitPrice,
         e.base.customerID, e.base.region] := by
    rw [splitOn_enrichedLine e htid2 hdate2 hpid2 hpn2 hcid2 hreg2]
    exact List.take_left' rfl
  refine ⟨htake, ?_, ?_⟩
  · rw [htake]
    exact parseRecord_baseLine e.base
      ⟨⟨htid1, htid2⟩, ⟨hdate1, hdate2⟩, ⟨hpid1, hpid2⟩,
        ⟨hpn1, hpn2, hpn3⟩, ⟨hcid1, hcid2⟩, ⟨hreg1, hreg2⟩,
        hT, hcne, hrne, hq, hp, hdec⟩
  · exact parse_enrichedLine e hT htid2 hdate2 hpid2 hpn2 hcid2 hreg2

theorem decimal_of_den_one (p : ℚ) (hp : p.den = 1) :
    (p * 10 ^ p.den).den = 1 := by
  have hint : p = ((p.num : ℤ) : ℚ) := by
    rw [← Rat.num_div_den p, hp]
    simp
  rw [hp, pow_one]
  conv_lhs => rw [hint]
  have hcast : ((p.num : ℤ) : ℚ) * 10 = (((p.num * 10 : ℤ)) : ℚ) := by
    push_cast
    ring
  rw [hcast, Rat.den_intCast]

/-- Closed instance of `save_enriched_base_roundtrip` at the spec §8
scenario transaction (no catalog hit). -/
theorem save_enriched_base_roundtrip_witness :
    parseStable (enrichOne [] txGood).base ∧
    ((splitOn '|' (enrichedLine (enrichOne [] txGood))).take 8
        = [(enrichOne [] txGood).base.transactionID,
           (enrichOne [] txGood).base.date,
           (enrichOne [] txGood).base.productID,
           (enrichOne [] txGood).base.productName,
           intStr (enrichOne [] txGood).base.quantity,
           floatStr (enrichOne [] txGood).base.unitPrice,
           (enrichOne [] txGood).base.customerID,
           (enrichOne [] txGood).base.region] ∧
      parseRecord (joinPipe
          ((splitOn '|' (enrichedLine (enrichOne [] txGood))).take 8))
        = some (enrichOne [] txGood).base ∧
      parse_transactions [enrichedLine (enrichOne [] txGood)]
        = ⟨[], 1, [enrichedLine (enrichOne [] txGood)], 1⟩) := by
  have hstable : parseStable (enrichOne [] txGood).base := by
    refine ⟨by decide, by decide, by decide, by decide, by decide, by decide,
      by decide, by decide, by decide, by decide, by decide, ?_⟩
    exact decimal_of_den_one _ (by decide)
  exact ⟨hstable, save_enriched_base_roundtrip (enrichOne [] txGood) hstable⟩

end Sales
